import Mathlib

/-!
Shallow embedding of the BalanceSnapshotter repository
(`src/balance_snapshotter/__init__.py` and `src/balance_snapshotter/token_data.py`).

Conventions of the embedding:
* Python strings are `String`, Python ints are `Int`/`Nat`.
* CPython object identity is modelled by an explicit `oid : Nat` field on
  wrapper objects; two values with different `oid` model two distinct objects.
* A Python `dict` is an insertion-ordered association list.  A dict keyed by
  `Token` objects probes by hash (which `Token.__hash__` delegates to the
  address string), shortcuts on identity, and otherwise calls `Token.__eq__`,
  whose Token-vs-Token branch recurses forever; that outcome is modelled by
  the error value `PyErr.recursionError`.
* Exceptions are modelled with `Except`; the payload of a failing balance
  query is the exception value raised by `balanceOf`, modelled as a `String`.
* `asyncio.gather` over the cross-product of queries is modelled by running
  the queries in an arbitrary completion order: theorems quantify over any
  permutation `order` of the query list built by the two nested `for` loops.
* Console output (`rich`/`tabulate`/`print`) is elided; the functions return
  the table rows whose rendering the source would print.
-/

namespace BalSnap

/-! ### Floating point and string formatting used by `val`

`val` is `"{:,.18f}".format(amount / 10 ** decimals)`.  The division of two
Python ints produces the IEEE-754 binary64 double nearest to the exact
rational quotient (ties to even); the format call renders that double with
exactly 18 fractional digits (correctly rounded, ties to even) and thousands
separators in the integer part.  `toFloat64` returns the exact rational value
of that double.  Values are assumed to lie in the normal finite double range
(no overflow to infinity and no subnormal underflow occur at any input
considered here). -/

/-- An exact (not necessarily reduced) fraction with positive denominator:
all operations below preserve `0 < den`, and no normalisation is ever
needed.  This self-contained representation is used instead of `ℚ` so that
every computation reduces by plain integer arithmetic. -/
structure Q where
  num : ℤ
  den : ℤ
deriving DecidableEq

/-- The fraction `n / 1`. -/
def qOfInt (n : ℤ) : Q := ⟨n, 1⟩

/-- Exact product of fractions. -/
def qMul (a b : Q) : Q := ⟨a.num * b.num, a.den * b.den⟩

/-- Exact difference of fractions. -/
def qSub (a b : Q) : Q := ⟨a.num * b.den - b.num * a.den, a.den * b.den⟩

/-- Exact quotient of fractions (the divisor is positive at every use). -/
def qDiv (a b : Q) : Q :=
  if b.num < 0 then ⟨-(a.num * b.den), a.den * (-b.num)⟩
  else ⟨a.num * b.den, a.den * b.num⟩

/-- Negation. -/
def qNeg (a : Q) : Q := ⟨-a.num, a.den⟩

/-- Absolute value. -/
def qAbs (a : Q) : Q := ⟨if a.num < 0 then -a.num else a.num, a.den⟩

/-- Strict comparison of fractions with positive denominators. -/
def qLt (a b : Q) : Bool := a.num * b.den < b.num * a.den

/-- Floor of a fraction with positive denominator. -/
def qFloor (a : Q) : ℤ := a.num.fdiv a.den

/-- Round a fraction to the nearest integer, ties to even. -/
def roundHalfEvenQ (q : Q) : ℤ :=
  let fl : ℤ := qFloor q
  let frac : Q := qSub q (qOfInt fl)
  if qLt frac ⟨1, 2⟩ then fl
  else if qLt ⟨1, 2⟩ frac then fl + 1
  else if fl % 2 = 0 then fl else fl + 1

/-- The fraction `2 ^ e`, for an integer exponent. -/
def pow2Z (e : ℤ) : Q :=
  match e with
  | .ofNat n => ⟨2 ^ n, 1⟩
  | .negSucc n => ⟨1, 2 ^ (n + 1)⟩

/-- Fuel-driven binary logarithm on `Nat` (structural recursion so that the
kernel can evaluate it); `log2Fuel n n = Nat.log2 n`. -/
def log2Fuel : Nat → Nat → Nat
  | 0, _ => 0
  | fuel + 1, n => if n < 2 then 0 else log2Fuel fuel (n / 2) + 1

/-- Computes `⌊log2 a⌋` for a positive fraction `a`: estimate from the bit lengths of
numerator and denominator, then correct by comparison. -/
def findExp (a : Q) : ℤ :=
  let nn := a.num.natAbs
  let dd := a.den.natAbs
  let e0 : ℤ := (log2Fuel nn nn : ℤ) - (log2Fuel dd dd : ℤ)
  if qLt a (pow2Z (e0 - 1)) then e0 - 2
  else if qLt a (pow2Z e0) then e0 - 1
  else if qLt a (pow2Z (e0 + 1)) then e0
  else if qLt a (pow2Z (e0 + 2)) then e0 + 1
  else e0 + 2

/-- The exact value of the binary64 double nearest to `q`
(round to nearest, ties to even), for `q` in the normal double range. -/
def toFloat64 (q : Q) : Q :=
  if q.num = 0 then qOfInt 0
  else
    let a : Q := qAbs q
    let e : ℤ := findExp a
    let ulp : Q := pow2Z (e - 52)
    let n : ℤ := roundHalfEvenQ (qDiv a ulp)
    let r : Q := qMul (qOfInt n) ulp
    if q.num < 0 then qNeg r else r

/-- Exactly `k` decimal digits of `n` (most significant first), as printed by
a fixed-width fractional part; `n < 10 ^ k` is assumed by callers. -/
def digitsFixedL : Nat → Nat → List Char
  | 0, _ => []
  | k + 1, n => digitsFixedL k (n / 10) ++ [Nat.digitChar (n % 10)]

/-- Insert a comma after every three characters, counting from the front of
the (reversed) digit list; structural recursion on a fuel bounded by the
list length. -/
def group3Fuel : Nat → List Char → List Char
  | 0, cs => cs
  | fuel + 1, cs =>
    if cs.length ≤ 3 then cs
    else cs.take 3 ++ (',' :: group3Fuel fuel (cs.drop 3))

/-- Insert a comma after every three characters from the front. -/
def group3 (cs : List Char) : List Char := group3Fuel cs.length cs

/-- Decimal digits of `n` with thousands separators, as Python's `{:,}`. -/
def commaDigits (n : Nat) : List Char :=
  (group3 (Nat.toDigits 10 n).reverse).reverse

/-- Python `"{:,.18f}"` applied to the nonnegative exact value `x` of a
double: round to 18 fractional digits (ties to even), thousands separators
in the integer part. -/
def formatAbs18 (x : Q) : String :=
  let n : ℤ := roundHalfEvenQ (qMul x (qOfInt (10 ^ 18)))
  let n' : ℕ := n.toNat
  let ip : ℕ := n' / 10 ^ 18
  let fp : ℕ := n' % 10 ^ 18
  String.mk (commaDigits ip) ++ "." ++ String.mk (digitsFixedL 18 fp)

/-- Python `"{:,.18f}"` applied to the exact value `x` of a double. -/
def formatComma18 (x : Q) : String :=
  if x.num < 0 then ("-") ++ formatAbs18 (qNeg x) else formatAbs18 x

/-- Model of `val(amount, decimals)`:
`return "{:,.18f}".format(amount / 10 ** decimals)` — the int/int true
division produces the binary64 double nearest to the exact quotient, which
is then formatted. -/
def val (amount : ℤ) (decimals : ℕ) : String :=
  formatComma18 (toFloat64 ⟨amount, 10 ^ decimals⟩)

/-! ### The `Token` wrapper (`class Token`) -/

/-- A `Token` wrapper object.  `oid` models CPython object identity of the
wrapper, `ctok` the identity of the underlying brownie contract `_token`;
`address`, `name`, `symbol`, `decimals` are read from the contract once in
`__init__`.  `__hash__` returns `hash(self.address)`; the hash of an address
string is modelled as the address itself (string hashing is injective here).
-/
structure Token where
  oid : Nat
  address : String
  name : String
  symbol : String
  decimals : Nat
  ctok : Nat
deriving DecidableEq

/-- The possible right-hand operands of `Token.__eq__`. -/
inductive PyOther where
  | ofStr (s : String)
  | ofToken (t : Token)
  | ofObj (oid : Nat)
deriving DecidableEq

/-- Model of `Token.__eq__` with an explicit recursion budget; `none` models CPython
raising `RecursionError` when the budget is exhausted.
* `type(other) == str` branch: `return self.address == str` — the right-hand
  side is the builtin *type* `str`, not `other`, and a string never compares
  equal to a type, so the branch yields `False` for every string.
* `type(other) == Token` branch: `return other == self`, which evaluates
  `Token.__eq__(other, self)` and recurses with the operands swapped.
* else branch: `return other == self._token`, modelled as identity
  comparison of the foreign object with the underlying contract handle. -/
def tokenEqFuel : Nat → Token → PyOther → Option Bool
  | 0, _, _ => none
  | _ + 1, _, .ofStr _ => some false
  | n + 1, t, .ofToken t2 => tokenEqFuel n t2 (.ofToken t)
  | _ + 1, t, .ofObj o => some (decide (o = t.ctok))

/-! ### Python-level errors -/

/-- Errors surfaced by the embedded operations. -/
inductive PyErr where
  /-- The `RecursionError` from the unbounded `Token.__eq__` mutual recursion,
  triggered when a dict keyed by `Token`s compares two distinct wrapper
  objects whose addresses (hence hashes) coincide. -/
  | recursionError
  /-- The `KeyError` from subscripting a dict on an absent key. -/
  | keyError
  /-- The exception raised by a `balanceOf` balance query, carrying the
  exception value raised by the chain-data reader. -/
  | readerError (msg : String)
  /-- The `Exception("Insufficient snaps have been taken to compare last two")`
  raised by `diff_last_two`. -/
  | insufficientHistory
deriving DecidableEq

deriving instance DecidableEq for Except

/-! ### `Balances` (`class Balances`): a dict of dicts -/

/-- An account, identified by (and modelled as) its address string. -/
abbrev Account := String

/-- Model of `Balances.balances`: a dict from `Token` to a dict from account to raw
integer balance, in insertion order. -/
structure Balances where
  balances : List (Token × List (Account × Int))
deriving DecidableEq

/-- Update (or append) the entry for account `a` in an inner dict. -/
def setInner : List (Account × Int) → Account → Int → List (Account × Int)
  | [], a, v => [(a, v)]
  | (a', v') :: rest, a, v =>
    if a' = a then (a', v) :: rest else (a', v') :: setInner rest a v

/-- Probe the outer dict for key `t` and update the inner dict.  A stored key
with the same address (same hash) but different identity sends `Token.__eq__`
into its unbounded recursion: `RecursionError`. -/
def setTok : List (Token × List (Account × Int)) → Token → Account → Int →
    Except PyErr (List (Token × List (Account × Int)))
  | [], t, a, v => .ok [(t, [(a, v)])]
  | (k, inner) :: rest, t, a, v =>
    if k.oid = t.oid then .ok ((k, setInner inner a v) :: rest)
    else if k.address = t.address then .error .recursionError
    else
      match setTok rest t a v with
      | .error e' => .error e'
      | .ok rest' => .ok ((k, inner) :: rest')

/-- Model of `Balances.set(token, account, value)`:
`if token not in self.balances: self.balances[token] = {}` followed by
`self.balances[token][account] = value`. -/
def Balances.set (b : Balances) (t : Token) (a : Account) (v : Int) :
    Except PyErr Balances :=
  match setTok b.balances t a v with
  | .error e' => .error e'
  | .ok bl => .ok ⟨bl⟩

/-- Dict lookup of a `Token` key, as in `after[token]`. -/
def getTok : List (Token × List (Account × Int)) → Token →
    Except PyErr (List (Account × Int))
  | [], _ => .error .keyError
  | (k, inner) :: rest, t =>
    if k.oid = t.oid then .ok inner
    else if k.address = t.address then .error .recursionError
    else getTok rest t

/-- Dict lookup of an account key, as in `after[token][account]`. -/
def getAcc : List (Account × Int) → Account → Except PyErr Int
  | [], _ => .error .keyError
  | (a', v) :: rest, a => if a' = a then .ok v else getAcc rest a

/-- Model of the subscript chain `after[token][account]`. -/
def Balances.getItem (b : Balances) (t : Token) (a : Account) :
    Except PyErr Int :=
  match getTok b.balances t with
  | .error e' => .error e'
  | .ok inner => getAcc inner a

/-- Specification-side observer: the mapping stored in a `Balances`,
matching token keys by object identity. -/
def Balances.getRaw (b : Balances) (t : Token) (a : Account) : Option Int :=
  match b.balances.find? (fun kv => kv.1.oid == t.oid) with
  | none => none
  | some kv => (kv.2.find? (fun av => av.1 == a)).map (fun av => av.2)

/-- All `(token, account, value)` entries of a two-level dict, in order. -/
def entriesOf : List (Token × List (Account × Int)) →
    List (Token × Account × Int)
  | [] => []
  | kv :: rest => kv.2.map (fun av => (kv.1, av.1, av.2)) ++ entriesOf rest

/-- All `(token, account, value)` entries of a `Balances`, in dict order. -/
def Balances.entryList (b : Balances) : List (Token × Account × Int) :=
  entriesOf b.balances

/-- Well-formedness of a two-level dict, as CPython dicts maintain it: outer
keys are pairwise distinct and each inner dict has pairwise distinct keys. -/
def WFb (bl : List (Token × List (Account × Int))) : Prop :=
  (bl.map (fun kv => kv.1)).Nodup ∧ ∀ kv ∈ bl, (kv.2.map (fun av => av.1)).Nodup

/-- The `(token, account)` keys of all entries of a `Balances`. -/
def Balances.entryKeys (b : Balances) : List (Token × Account) :=
  b.entryList.map (fun x => (x.1, x.2.1))

/-- The token keys of the outer dict. -/
def Balances.tokenKeys (b : Balances) : List Token :=
  b.balances.map (fun kv => kv.1)

/-! ### The snapshot engine (`class BalanceSnapshotter`) -/

/-- One element of `self.snaps`: the dict
`{"name": name, "balances": balances}`. -/
structure Snap where
  name : String
  balances : Balances
deriving DecidableEq

/-- The engine state: the tracked token and account lists and the snapshot
history (`self.tokens`, `self.accounts`, `self.snaps`).  The asyncio loop and
the completion event only sequence the coroutine and are elided. -/
structure BalanceSnapshotter where
  tokens : List Token
  accounts : List Account
  snaps : List Snap
deriving DecidableEq

/-- The chain-data reader behind `token.balanceOf(account)`: returns the raw
integer balance or raises (payload modelled as a `String`). -/
def Reader : Type := Token → Account → Except String Int

/-- A reader that answers every query (never raises). -/
def okReader (f : Token → Account → Int) : Reader :=
  fun t a => .ok (f t a)

/-- The list of `(token, account)` queries built by the two nested `for`
loops of `_async_take_snapshot`, in program order. -/
def BalanceSnapshotter.queryList (e : BalanceSnapshotter) :
    List (Token × Account) :=
  e.tokens.flatMap (fun t => e.accounts.map (fun a => (t, a)))

/-- Run the gathered `set_balance` coroutines in the given completion order:
each one evaluates `_token.balanceOf(_account)` and then
`balances.set(_token, _account, value)`.  A raising query or a crashing
`set` aborts the batch with that exception (`asyncio.gather` with default
`return_exceptions` propagates the first exception). -/
def runQueries (r : Reader) : List (Token × Account) → Balances →
    Except PyErr Balances
  | [], b => .ok b
  | (t, a) :: rest, b =>
    match r t a with
    | .error msg => .error (.readerError msg)
    | .ok v =>
      match b.set t a v with
      | .error e' => .error e'
      | .ok b' => runQueries r rest b'

/-- Model of `_async_take_snapshot(name)`: gather all balance queries over the
token × account cross-product (an arbitrary completion order `order`), and on
success append `{"name": name, "balances": balances}` to `self.snaps`.  On an
exception nothing is appended and the engine state is unchanged; the pair
returned is (resulting engine state, outcome). -/
def BalanceSnapshotter.async_take_snapshot (e : BalanceSnapshotter)
    (name : String) (r : Reader) (order : List (Token × Account)) :
    BalanceSnapshotter × Except PyErr Snap :=
  match runQueries r order ⟨[]⟩ with
  | .error e' => (e, .error e')
  | .ok b =>
    let s : Snap := ⟨name, b⟩
    ({ e with snaps := e.snaps ++ [s] }, .ok s)

/-- Model of `snap(name)`: drives `_async_take_snapshot` to completion (the
`run_until_complete` path; the busy-wait on `balance_event` and the optional
printing are elided) and returns `self.snaps[-1]`, which is the snapshot the
coroutine appended. -/
def BalanceSnapshotter.snap (e : BalanceSnapshotter) (name : String)
    (r : Reader) (order : List (Token × Account)) :
    BalanceSnapshotter × Except PyErr Snap :=
  e.async_take_snapshot name r order

/-! ### `diff_last_two` and `Balances.print` -/

/-- The 1-tuple `(val(after[token][account] - value, decimals=...),)` built
by `diff_last_two` — note the trailing comma in the source. -/
structure Tup1 where
  x : String
deriving DecidableEq

/-- CPython `tuple == int`: no overload on either side, always `False`.
This is the comparison `if amount == 0` performed by `diff_last_two`. -/
def pyTupIntEq (_t' : Tup1) (_n : Int) : Bool := false

/-- CPython `str == int`: no overload on either side, always `False`.
This is the comparison `if amount == 0` performed by `Balances.print`. -/
def pyStrIntEq (_s : String) (_n : Int) : Bool := false

/-- A row `[token.symbol, account, amount]` appended by `diff_last_two`. -/
structure DiffRow where
  symbol : String
  account : Account
  amount : Tup1
deriving DecidableEq

/-- The inner loop of `diff_last_two` over one token's accounts. -/
def diffInner (after : Balances) (t : Token) :
    List (Account × Int) → Except PyErr (List DiffRow)
  | [] => .ok []
  | (a, v) :: rest =>
    match after.getItem t a with
    | .error e' => .error e'
    | .ok w =>
      let amount : Tup1 := ⟨val (w - v) t.decimals⟩
      match diffInner after t rest with
      | .error e' => .error e'
      | .ok rows =>
        if pyTupIntEq amount 0 then .ok rows
        else .ok (⟨t.symbol, a, amount⟩ :: rows)

/-- The outer loop of `diff_last_two` over `before.items()`. -/
def diffRows (after : Balances) :
    List (Token × List (Account × Int)) → Except PyErr (List DiffRow)
  | [] => .ok []
  | (t, inner) :: rest =>
    match diffInner after t inner with
    | .error e' => .error e'
    | .ok rs =>
      match diffRows after rest with
      | .error e' => .error e'
      | .ok rest' => .ok (rs ++ rest')

/-- Model of `diff_last_two()`: raises when fewer than two snaps exist, otherwise
compares `self.snaps[-2]` (before) with `self.snaps[-1]` (after) and returns
the table rows handed to `tabulate` (console printing elided). -/
def BalanceSnapshotter.diff_last_two (e : BalanceSnapshotter) :
    Except PyErr (List DiffRow) :=
  if e.snaps.length < 2 then .error .insufficientHistory
  else
    match e.snaps.reverse with
    | after_snap :: before_snap :: _ =>
      diffRows after_snap.balances before_snap.balances.balances
    | _ => .error .insufficientHistory

/-- A row `[account.address, val(value, decimals), token.symbol]` appended
by `Balances.print`. -/
structure PrintRow where
  account : Account
  amount : String
  symbol : String
deriving DecidableEq

/-- Model of `Balances.print()`: the rows handed to `tabulate` (console printing
elided).  The `# ignore 0 balance` filter compares the *formatted string*
against the integer `0`. -/
def Balances.print (b : Balances) : List PrintRow :=
  b.balances.flatMap (fun kv =>
    kv.2.filterMap (fun av =>
      let amount : String := val av.2 kv.1.decimals
      if pyStrIntEq amount 0 then none
      else some ⟨av.1, val av.2 kv.1.decimals, kv.1.symbol⟩))

/-! ### The token-metadata cache (`token_data.py`, `class TokenData`) -/

/-- The cached triple `{'name': ..., 'symbol': ..., 'decimals': ...}`. -/
structure TokenInfo where
  name : String
  symbol : String
  decimals : Nat
deriving DecidableEq

/-- The remote metadata reads behind `token.name()`, `token.symbol()` and
`token.decimals()` of the contract bound at an address; each may raise. -/
structure Chain where
  nameOf : String → Except String String
  symbolOf : String → Except String String
  decimalsOf : String → Except String Nat

/-- The argument of `fetch_token_data`: `Union[Contract, str]`.  A `Contract`
is identified by its address; `interface.IERC20(s)` is modelled as the
contract bound at address `s`. -/
inductive TDInput where
  | contract (address : String)
  | addr (s : String)
deriving DecidableEq

/-- Model of `token.address if isinstance(token, Contract) else token`, which also
equals `token.address` after the string-to-contract conversion. -/
def TDInput.address : TDInput → String
  | .contract a => a
  | .addr s => s

/-- Model of `self.data`: the process-wide cache dict keyed by address. -/
structure TokenData where
  data : List (String × TokenInfo)
deriving DecidableEq

/-- Exceptions surfacing from `fetch_token_data`. -/
inductive TDErr where
  /-- `AttributeError`: the final `return self.data[token.address]`
  evaluates `.address` on a plain `str` when the cache hit skipped the
  string-to-contract conversion. -/
  | attributeError
  /-- The exception raised by a failing remote metadata read. -/
  | chainError (msg : String)
deriving DecidableEq

/-- Dict lookup in the cache. -/
def lookupData (d : List (String × TokenInfo)) (a : String) :
    Option TokenInfo :=
  (d.find? (fun kv => kv.1 == a)).map (fun kv => kv.2)

/-- Model of `TokenData.fetch_token_data(token)`.  Returns the resulting cache state,
the outcome, and the number of remote metadata fetch attempts performed
(`1` means the `token.name()` / `token.symbol()` / `token.decimals()` read
sequence was started, `0` means no remote read happened).
* Cache hit: the `if address not in self.data` body is skipped, so `token`
  is never converted; the final `return self.data[token.address]` then
  returns the cached triple when `token` is a Contract, but raises
  `AttributeError` when `token` is a raw string (a `str` has no
  `.address`).
* Cache miss: a string is converted to the contract bound at that address,
  the three remote reads run, and the first raising read propagates; the
  dict literal is evaluated before the assignment `self.data[...] = ...`,
  so a raising read leaves the cache unchanged. -/
def TokenData.fetch_token_data (td : TokenData) (ch : Chain)
    (token : TDInput) : TokenData × Except TDErr TokenInfo × Nat :=
  let address := token.address
  match lookupData td.data address with
  | some info =>
    match token with
    | .contract _ => (td, .ok info, 0)
    | .addr _ => (td, .error .attributeError, 0)
  | none =>
    match ch.nameOf address with
    | .error e' => (td, .error (.chainError e'), 1)
    | .ok nm =>
      match ch.symbolOf address with
      | .error e' => (td, .error (.chainError e'), 1)
      | .ok sym =>
        match ch.decimalsOf address with
        | .error e' => (td, .error (.chainError e'), 1)
        | .ok dec =>
          let info : TokenInfo := ⟨nm, sym, dec⟩
          (⟨td.data ++ [(address, info)]⟩, .ok info, 1)

/-- Model of `TokenData.get_name(token)`. -/
def TokenData.get_name (td : TokenData) (ch : Chain) (token : TDInput) :
    TokenData × Except TDErr String × Nat :=
  match td.fetch_token_data ch token with
  | (td', res, n) => (td', res.map (fun i => i.name), n)

/-- Model of `TokenData.get_symbol(token)`. -/
def TokenData.get_symbol (td : TokenData) (ch : Chain) (token : TDInput) :
    TokenData × Except TDErr String × Nat :=
  match td.fetch_token_data ch token with
  | (td', res, n) => (td', res.map (fun i => i.symbol), n)

/-- Model of `TokenData.get_decimals(token)`. -/
def TokenData.get_decimals (td : TokenData) (ch : Chain) (token : TDInput) :
    TokenData × Except TDErr Nat × Nat :=
  match td.fetch_token_data ch token with
  | (td', res, n) => (td', res.map (fun i => i.decimals), n)

/-- The number of remote metadata fetch attempts for address `a` performed
while serving a sequence of requests, threading the cache state. -/
def fetchesFor (ch : Chain) (a : String) : TokenData → List TDInput → Nat
  | _, [] => 0
  | td, tok :: rest =>
    match td.fetch_token_data ch tok with
    | (td', _, n) => (if tok.address = a then n else 0) + fetchesFor ch a td' rest

/-! ### Further specification-side observers -/

/-- The value a successful `after[token][account]` lookup yields (the error
cases are never reached where this observer is used). -/
def exGet (b : Balances) (t : Token) (a : Account) : Int :=
  match b.getItem t a with
  | .ok w => w
  | .error _ => 0

/-- Whether an `Except` value is an error. -/
def isErr {ε α : Type} : Except ε α → Bool
  | .error _ => true
  | .ok _ => false

/-- The `(token, account)` queries of a snapshot batch whose balance query
raises. -/
def failingPairs (r : Reader) (e : BalanceSnapshotter) :
    List (Token × Account) :=
  e.queryList.filter (fun p => isErr (r p.1 p.2))

/-- Modelled from the spec: the rendering `val` would produce if the scaling
by `10 ^ -decimals` were computed with exact fixed-point/decimal arithmetic
(no binary64 rounding), formatted to 18 fractional digits with thousands
separators.  Used only to compare the source's `val` against the spec's
description of it. -/
def val_decimalSpec (amount : ℤ) (decimals : ℕ) : String :=
  formatComma18 ⟨amount, 10 ^ decimals⟩

/-! ### Concrete fixtures used by witnesses and counterexamples -/

/-- A token wrapper at address `0xA`. -/
def tokenA : Token := ⟨0, "0xA", "TokenA", "TKA", 18, 100⟩

/-- A token wrapper at address `0xB`. -/
def tokenB : Token := ⟨1, "0xB", "TokenB", "TKB", 18, 101⟩

/-- A second, distinct wrapper object for the same address `0xA` (as built by
adding the same raw address twice). -/
def tokenA2 : Token := ⟨2, "0xA", "TokenA", "TKA", 18, 102⟩

/-- An engine tracking two distinct tokens and one account, no history. -/
def engineAB : BalanceSnapshotter := ⟨[tokenA, tokenB], ["acct1"], []⟩

/-- An engine tracking two distinct wrapper objects for one address. -/
def engineDup : BalanceSnapshotter := ⟨[tokenA, tokenA2], ["acct1"], []⟩

/-- A reader whose query for `tokenA` raises `boom` and answers `7`
elsewhere. -/
def readerFailA : Reader := fun t _ => if t.oid = 0 then .error ("boom") else .ok 7

/-- A reader whose query for `tokenB` raises `boom` and answers `7`
elsewhere. -/
def readerFailB : Reader := fun t _ => if t.oid = 1 then .error ("boom") else .ok 7

/-- A store holding a zero balance of `tokenA` for `acct1`. -/
def storeZero : Balances := ⟨[(tokenA, [("acct1", 0)])]⟩

/-- A store holding a balance of `5` of `tokenA` for `acct1`. -/
def storeFive : Balances := ⟨[(tokenA, [("acct1", 5)])]⟩

/-- An engine whose last two snapshots are identical. -/
def engineTwoSame : BalanceSnapshotter :=
  ⟨[tokenA], ["acct1"], [⟨"s0", storeFive⟩, ⟨"s1", storeFive⟩]⟩

/-- A metadata source that answers every read. -/
def chainOk : Chain :=
  ⟨fun a => .ok ("name-" ++ a), fun a => .ok ("sym-" ++ a), fun _ => .ok 18⟩

/-- A metadata source whose `decimals()` read raises for every address. -/
def chainBadDecimals : Chain :=
  ⟨fun a => .ok ("name-" ++ a), fun a => .ok ("sym-" ++ a),
    fun _ => .error ("no decimals")⟩

/-! ## Helper lemmas -/

theorem length_mk (l : List Char) : (String.mk l).length = l.length := rfl

theorem digitsFixedL_length : ∀ (k n : ℕ), (digitsFixedL k n).length = k := by
  intro k
  induction k with
  | zero => intro n; rfl
  | succ m ih => intro n; simp [digitsFixedL, ih]

theorem formatAbs18_parts (x : Q) :
    ∃ ip fp : String, formatAbs18 x = ip ++ "." ++ fp ∧ fp.length = 18 := by
  have h : formatAbs18 x = String.mk (commaDigits
        ((roundHalfEvenQ (qMul x (qOfInt (10 ^ 18)))).toNat / 10 ^ 18)) ++ "." ++
      String.mk (digitsFixedL 18
        ((roundHalfEvenQ (qMul x (qOfInt (10 ^ 18)))).toNat % 10 ^ 18)) := by rfl
  revert h
  generalize (roundHalfEvenQ (qMul x (qOfInt (10 ^ 18)))).toNat = m
  intro h
  refine ⟨String.mk (commaDigits (m / 10 ^ 18)),
    String.mk (digitsFixedL 18 (m % 10 ^ 18)), h, ?_⟩
  rw [length_mk]
  exact digitsFixedL_length 18 (m % 10 ^ 18)

theorem formatComma18_parts (x : Q) :
    ∃ pre fp : String, formatComma18 x = pre ++ "." ++ fp ∧ fp.length = 18 := by
  by_cases h : x.num < 0
  · obtain ⟨ip, fp, he, hl⟩ := formatAbs18_parts (qNeg x)
    refine ⟨"-" ++ ip, fp, ?_, hl⟩
    show formatComma18 x = "-" ++ ip ++ "." ++ fp
    rw [formatComma18, if_pos h, he]
    simp [String.append_assoc]
  · obtain ⟨ip, fp, he, hl⟩ := formatAbs18_parts x
    refine ⟨ip, fp, ?_, hl⟩
    rw [formatComma18, if_neg h, he]

theorem getTok_no_insuff :
    ∀ (bl : List (Token × List (Account × Int))) (t : Token),
      getTok bl t ≠ .error PyErr.insufficientHistory := by
  intro bl t
  induction bl with
  | nil => simp [getTok]
  | cons kv rest ih =>
    obtain ⟨k, inner⟩ := kv
    by_cases h1 : k.oid = t.oid
    · simp [getTok, h1]
    · by_cases h2 : k.address = t.address
      · simp [getTok, h1, h2]
      · simpa [getTok, h1, h2] using ih

theorem getAcc_no_insuff :
    ∀ (inner : List (Account × Int)) (a : Account),
      getAcc inner a ≠ .error PyErr.insufficientHistory := by
  intro inner a
  induction inner with
  | nil => simp [getAcc]
  | cons av rest ih =>
    obtain ⟨a', v⟩ := av
    by_cases h1 : a' = a
    · simp [getAcc, h1]
    · simpa [getAcc, h1] using ih

theorem getItem_no_insuff (b : Balances) (t : Token) (a : Account) :
    b.getItem t a ≠ .error PyErr.insufficientHistory := by
  rw [Balances.getItem]
  cases hg : getTok b.balances t with
  | error e' =>
    intro hc
    injection hc with h'
    rw [h'] at hg
    exact getTok_no_insuff b.balances t hg
  | ok inner => exact getAcc_no_insuff inner a

theorem diffInner_no_insuff (after : Balances) (t : Token) :
    ∀ inner, diffInner after t inner ≠ .error PyErr.insufficientHistory := by
  intro inner
  induction inner with
  | nil => simp [diffInner]
  | cons av rest ih =>
    obtain ⟨a, v⟩ := av
    rw [diffInner]
    cases hg : after.getItem t a with
    | error e' =>
      intro hc
      injection hc with h'
      rw [h'] at hg
      exact getItem_no_insuff after t a hg
    | ok w =>
      cases hr : diffInner after t rest with
      | error e' =>
        intro hc
        injection hc with h'
        rw [h'] at hr
        exact ih hr
      | ok rows => simp [pyTupIntEq]

theorem diffRows_no_insuff (after : Balances) :
    ∀ bl, diffRows after bl ≠ .error PyErr.insufficientHistory := by
  intro bl
  induction bl with
  | nil => simp [diffRows]
  | cons kv rest ih =>
    obtain ⟨t, inner⟩ := kv
    rw [diffRows]
    cases hg : diffInner after t inner with
    | error e' =>
      intro hc
      injection hc with h'
      rw [h'] at hg
      exact diffInner_no_insuff after t inner hg
    | ok rs =>
      cases hr : diffRows after rest with
      | error e' =>
        intro hc
        injection hc with h'
        rw [h'] at hr
        exact ih hr
      | ok rest' => simp

/-! ## Claim theorems -/

/-- C8: `diff_last_two` fails with the insufficient-history error exactly
when the snapshot history holds fewer than two snapshots; with two or more
snapshots that error is never raised.  (The embedded operation reads the
engine state and returns a table, so the state is unchanged by
construction, and the function is total, so the call terminates.) -/
theorem diff_last_two_insufficient_iff :
    ∀ e : BalanceSnapshotter,
      (e.diff_last_two = .error PyErr.insufficientHistory ↔
        e.snaps.length < 2) := by
  intro e
  constructor
  · intro h
    by_contra hlen
    have hx : ∃ x y rest, e.snaps.reverse = x :: y :: rest := by
      have hlrev : e.snaps.reverse.length = e.snaps.length :=
        List.length_reverse _
      cases hrev : e.snaps.reverse with
      | nil =>
        rw [hrev] at hlrev
        simp at hlrev
        omega
      | cons x t' =>
        cases t' with
        | nil =>
          rw [hrev] at hlrev
          simp at hlrev
          omega
        | cons y rest => exact ⟨x, y, rest, rfl⟩
    obtain ⟨x, y, rest, hrev⟩ := hx
    rw [BalanceSnapshotter.diff_last_two, if_neg hlen, hrev] at h
    exact diffRows_no_insuff x.balances y.balances.balances h
  · intro h
    simp [BalanceSnapshotter.diff_last_two, h]

/-- C9: the claim says `t == s` for a string `s` holds iff `s` equals the
token's address; the string branch of `Token.__eq__` actually executes
`self.address == str`, comparing the address against the *type* `str`, so
it returns `False` even when `s` is exactly the token's address.  This
evaluates the code at that failing input. -/
theorem token_eq_string_always_false :
    tokenA.address = "0xA" ∧
      tokenEqFuel 1 tokenA (.ofStr ("0xA")) = some false := by
  exact ⟨rfl, rfl⟩

/-- C10: `t1 == t2` for Token wrappers never terminates: the Token-vs-Token
branch of `Token.__eq__` evaluates `other == self`, which swaps the operands
and recurses with no base case, so no recursion budget suffices (CPython
raises `RecursionError`). -/
theorem token_eq_token_never_terminates :
    ∀ (fuel : Nat) (t1 t2 : Token),
      tokenEqFuel fuel t1 (.ofToken t2) = none := by
  intro fuel
  induction fuel with
  | zero => intro t1 t2; rfl
  | succ n ih => intro t1 t2; exact ih t2 t1

set_option maxRecDepth 8000 in
/-- C4: the claim says zero-rendered rows are omitted from the tables of
`Balances.print` and `diff_last_two`; in the code both `# ignore 0 balance`
filters compare a non-integer (`Balances.print` a formatted string,
`diff_last_two` a 1-tuple) against the integer `0`, which is always `False`
in CPython, so the zero rows are rendered.  Evaluating the code at a store
with a zero balance and at two identical snapshots: the printed table
contains the zero row, and the diff of two identical snapshots contains its
all-zero row instead of rendering an empty table. -/
theorem zero_rows_not_omitted :
    storeZero.print = [⟨"acct1", "0.000000000000000000", "TKA"⟩] ∧
      engineTwoSame.diff_last_two =
        .ok [⟨"TKA", "acct1", ⟨"0.000000000000000000"⟩⟩] := by
  exact ⟨by decide, by decide⟩

set_option maxRecDepth 8000 in
/-- C7: `val` scales by `10 ^ -decimals` in binary64 floating-point (Python
int/int true division), not fixed-point/decimal arithmetic, then formats
with exactly 18 fractional digits and thousands separators; on the
exactly-representable inputs of the claim it renders the stated strings. -/
theorem val_float_format :
    (∀ (amount : ℤ) (decimals : ℕ), ∃ pre fp : String,
        val amount decimals = pre ++ "." ++ fp ∧ fp.length = 18) ∧
      val 1000000000000000000 18 = "1.000000000000000000" ∧
      val 1234567000000000000000000 18 = "1,234,567.000000000000000000" ∧
      val (-1000000000000000000) 18 = "-1.000000000000000000" := by
  refine ⟨fun amount decimals => formatComma18_parts _, by decide, by decide,
    by decide⟩

set_option maxRecDepth 8000 in
/-- C7 counterexample: at `amount = 10 ^ 18 + 1`, `decimals = 18` the exact
fixed-point/decimal rendering demanded by the claim is
`1.000000000000000001`, but `val` computes the quotient in binary64 floating
point, where it rounds to exactly `1.0`, and renders
`1.000000000000000000`: the claim's "fixed-point/decimal arithmetic" is
falsified at this input. -/
theorem val_not_fixed_point :
    val 1000000000000000001 18 = "1.000000000000000000" ∧
      val_decimalSpec 1000000000000000001 18 = "1.000000000000000001" ∧
      val 1000000000000000001 18 ≠ val_decimalSpec 1000000000000000001 18 := by
  exact ⟨by decide, by decide, by decide⟩

theorem runQueries_err_of_mem :
    ∀ (r : Reader) (L : List (Token × Account)) (b : Balances),
      (∃ p ∈ L, isErr (r p.1 p.2) = true) →
      isErr (runQueries r L b) = true := by
  intro r L
  induction L with
  | nil =>
    intro b h
    simp at h
  | cons p rest ih =>
    intro b h
    obtain ⟨q, hq, hqe⟩ := h
    obtain ⟨t, a⟩ := p
    cases hr : r t a with
    | error msg => simp [runQueries, hr, isErr]
    | ok v =>
      cases hs : b.set t a v with
      | error e' => simp [runQueries, hr, hs, isErr]
      | ok b' =>
        have hstep : runQueries r ((t, a) :: rest) b = runQueries r rest b' := by
          simp [runQueries, hr, hs]
        rw [hstep]
        rcases List.mem_cons.mp hq with hq1 | hq2
        · rw [hq1] at hqe
          rw [hr] at hqe
          simp [isErr] at hqe
        · exact ih b' ⟨q, hq2, hqe⟩

/-- C2 (amended): if any balance query of the batch raises, the snapshot
attempt fails — the raw exception of the first failing query propagates, not
an `AcquisitionError` naming the failed pairs — and the snapshot history is
exactly what it was before: nothing is appended. -/
theorem async_take_snapshot_failure_keeps_history :
    ∀ (e : BalanceSnapshotter) (nm : String) (r : Reader)
      (order : List (Token × Account)),
      (isErr (e.async_take_snapshot nm r order).2 = true →
        (e.async_take_snapshot nm r order).1 = e) ∧
      ((∃ p ∈ order, isErr (r p.1 p.2) = true) →
        isErr (e.async_take_snapshot nm r order).2 = true) := by
  intro e nm r order
  constructor
  · intro h
    rw [BalanceSnapshotter.async_take_snapshot]
    cases hq : runQueries r order ⟨[]⟩ with
    | error e' => rfl
    | ok b =>
      rw [BalanceSnapshotter.async_take_snapshot, hq] at h
      simp [isErr] at h
  · intro h
    have herr := runQueries_err_of_mem r order ⟨[]⟩ h
    rw [BalanceSnapshotter.async_take_snapshot]
    cases hq : runQueries r order ⟨[]⟩ with
    | error e' => simp [isErr]
    | ok b =>
      rw [hq] at herr
      simp [isErr] at herr

/-- C2 witness: the theorem applied to a concrete engine and a reader whose
`tokenA` query raises. -/
theorem async_take_snapshot_failure_keeps_history_witness :
    (engineAB.async_take_snapshot ("x") readerFailA engineAB.queryList).1 =
        engineAB ∧
      isErr (engineAB.async_take_snapshot ("x") readerFailA
        engineAB.queryList).2 = true := by
  have h := async_take_snapshot_failure_keeps_history engineAB ("x") readerFailA
    engineAB.queryList
  have hfail : ∃ p ∈ engineAB.queryList, isErr (readerFailA p.1 p.2) = true :=
    by decide
  exact ⟨h.1 (h.2 hfail), h.2 hfail⟩

/-- C2 counterexample: the propagated failure does not identify which
(token, account) pairs failed — two runs whose failing pair sets differ
produce identical outcomes (the same raw exception and the same unchanged
engine), so no `AcquisitionError` identifying the failed pairs is raised. -/
theorem async_take_snapshot_error_not_identifying :
    engineAB.async_take_snapshot ("x") readerFailA engineAB.queryList =
        engineAB.async_take_snapshot ("x") readerFailB engineAB.queryList ∧
      failingPairs readerFailA engineAB ≠ failingPairs readerFailB engineAB := by
  exact ⟨by decide, by decide⟩

theorem lookupData_append_some :
    ∀ (d l2 : List (String × TokenInfo)) (a : String) (i : TokenInfo),
      lookupData d a = some i → lookupData (d ++ l2) a = some i := by
  intro d l2 a i h
  induction d with
  | nil => simp [lookupData] at h
  | cons kv rest ih =>
    by_cases hk : kv.1 = a
    · simp [lookupData, List.find?, hk] at h ⊢
      exact h
    · simp only [lookupData, List.cons_append, List.find?] at h ⊢
      rw [show (kv.1 == a) = false by simp [hk]] at h ⊢
      exact ih h

theorem lookupData_append_new :
    ∀ (d : List (String × TokenInfo)) (a : String) (i : TokenInfo),
      lookupData d a = none → lookupData (d ++ [(a, i)]) a = some i := by
  intro d a i h
  induction d with
  | nil => simp [lookupData]
  | cons kv rest ih =>
    by_cases hk : kv.1 = a
    · simp [lookupData, List.find?, hk] at h
    · simp only [lookupData, List.cons_append, List.find?] at h ⊢
      rw [show (kv.1 == a) = false by simp [hk]] at h ⊢
      exact ih h

theorem fetch_preserves_some :
    ∀ (ch : Chain) (td : TokenData) (tok : TDInput) (a : String) (i : TokenInfo),
      lookupData td.data a = some i →
      lookupData (td.fetch_token_data ch tok).1.data a = some i := by
  intro ch td tok a i h
  rw [TokenData.fetch_token_data]
  cases hl : lookupData td.data tok.address with
  | some j =>
    cases tok with
    | contract a' => exact h
    | addr s => exact h
  | none =>
    cases hn : ch.nameOf tok.address with
    | error e' => exact h
    | ok nm =>
      cases hs : ch.symbolOf tok.address with
      | error e' => exact h
      | ok sym =>
        cases hd : ch.decimalsOf tok.address with
        | error e' => exact h
        | ok dec => exact lookupData_append_some td.data _ a i h

theorem fetch_hit :
    ∀ (ch : Chain) (td : TokenData) (tok : TDInput) (i : TokenInfo),
      lookupData td.data tok.address = some i →
      ∃ r, td.fetch_token_data ch tok = (td, r, 0) := by
  intro ch td tok i hl
  cases tok with
  | contract a =>
    refine ⟨.ok i, ?_⟩
    rw [TokenData.fetch_token_data]
    rw [show (TDInput.contract a).address = a from rfl] at hl ⊢
    rw [hl]
  | addr s =>
    refine ⟨.error .attributeError, ?_⟩
    rw [TokenData.fetch_token_data]
    rw [show (TDInput.addr s).address = s from rfl] at hl ⊢
    rw [hl]

theorem isOk_exists {e' : Type} {α : Type} :
    ∀ (x : Except e' α), x.isOk = true → ∃ v, x = .ok v := by
  intro x h
  cases x with
  | error msg => simp [Except.isOk, Except.toBool] at h
  | ok v => exact ⟨v, rfl⟩

theorem fetchesFor_bound :
    ∀ (ch : Chain) (a : String),
      (ch.nameOf a).isOk = true → (ch.symbolOf a).isOk = true →
      (ch.decimalsOf a).isOk = true →
      ∀ (reqs : List TDInput) (td : TokenData),
        fetchesFor ch a td reqs ≤ 1 ∧
          ((lookupData td.data a).isSome = true →
            fetchesFor ch a td reqs = 0) := by
  intro ch a hn hs hd reqs
  induction reqs with
  | nil => intro td; exact ⟨Nat.zero_le 1, fun _ => rfl⟩
  | cons tok rest ih =>
    intro td
    by_cases hta : tok.address = a
    · cases hl : lookupData td.data tok.address with
      | some i =>
        obtain ⟨r, hfetch⟩ := fetch_hit ch td tok i hl
        have hsome : (lookupData td.data a).isSome = true := by
          rw [← hta, hl]; rfl
        have hrest : fetchesFor ch a td rest = 0 := (ih td).2 hsome
        rw [fetchesFor, hfetch]
        constructor
        · simp [hrest]
        · intro _
          simp [hrest]
      | none =>
        obtain ⟨nm, hnm⟩ := isOk_exists (ch.nameOf a) hn
        obtain ⟨sym, hsym⟩ := isOk_exists (ch.symbolOf a) hs
        obtain ⟨dec, hdec⟩ := isOk_exists (ch.decimalsOf a) hd
        have hfetch : td.fetch_token_data ch tok =
            (⟨td.data ++ [(tok.address, ⟨nm, sym, dec⟩)]⟩,
              .ok ⟨nm, sym, dec⟩, 1) := by
          rw [TokenData.fetch_token_data, hl, hta, hnm, hsym, hdec]
        have hnew : (lookupData (td.data ++ [(tok.address,
            (⟨nm, sym, dec⟩ : TokenInfo))]) a).isSome = true := by
          rw [hta, lookupData_append_new td.data a ⟨nm, sym, dec⟩ (hta ▸ hl)]
          rfl
        have hrest : fetchesFor ch a
            (⟨td.data ++ [(tok.address, ⟨nm, sym, dec⟩)]⟩ : TokenData) rest = 0 :=
          (ih ⟨td.data ++ [(tok.address, ⟨nm, sym, dec⟩)]⟩).2 hnew
        rw [fetchesFor, hfetch]
        rw [hta] at hrest
        constructor
        · simp [hrest, hta]
        · intro hcontra
          rw [← hta, hl] at hcontra
          simp at hcontra
    · rw [fetchesFor]
      constructor
      · have h1 := (ih (td.fetch_token_data ch tok).1).1
        simpa [hta] using h1
      · intro hsome
        obtain ⟨i, hi⟩ : ∃ i, lookupData td.data a = some i := by
          cases hx : lookupData td.data a with
          | none => rw [hx] at hsome; simp at hsome
          | some i => exact ⟨i, rfl⟩
        have hpres := fetch_preserves_some ch td tok a i hi
        have h0 := (ih (td.fetch_token_data ch tok).1).2 (by rw [hpres]; rfl)
        simp [hta, h0]

/-- C5: the claim says every subsequent call for an already-cached address
returns the cached triple without any remote call.  Evaluating the code:
the first call for an address performs the one remote metadata fetch and
stores the triple keyed by that address, and a later call passing a
Contract handle does return the cached triple with no remote call — but a
later call passing the same address as a raw string skips the conversion
on the cache hit, so `return self.data[token.address]` evaluates
`.address` on a plain `str` and raises `AttributeError` instead of
returning the cached triple (no remote call happens on either hit path,
so the at-most-one-fetch bound itself is not violated). -/
theorem fetch_token_data_cached_string_hit_crashes :
    (TokenData.mk []).fetch_token_data chainOk (.addr ("0xA")) =
        (⟨[("0xA", ⟨"name-0xA", "sym-0xA", 18⟩)]⟩,
          .ok ⟨"name-0xA", "sym-0xA", 18⟩, 1) ∧
      (TokenData.mk [("0xA", ⟨"name-0xA", "sym-0xA", 18⟩)]).fetch_token_data
          chainOk (.addr ("0xA")) =
        (⟨[("0xA", ⟨"name-0xA", "sym-0xA", 18⟩)]⟩,
          .error .attributeError, 0) ∧
      (TokenData.mk [("0xA", ⟨"name-0xA", "sym-0xA", 18⟩)]).fetch_token_data
          chainOk (.contract ("0xA")) =
        (⟨[("0xA", ⟨"name-0xA", "sym-0xA", 18⟩)]⟩,
          .ok ⟨"name-0xA", "sym-0xA", 18⟩, 0) := by
  exact ⟨by decide, by decide, by decide⟩

/-- C6: when the address is not cached and a remote metadata read raises,
`fetch_token_data` propagates that resolution failure, the cache stores
nothing for the address (the dict literal is evaluated before the
assignment), and a repeated call attempts the remote fetch again with the
same outcome — errors are not cached. -/
theorem fetch_token_data_error_not_cached :
    ∀ (ch : Chain) (td : TokenData) (tok : TDInput),
      lookupData td.data tok.address = none →
      ¬((ch.nameOf tok.address).isOk = true ∧
        (ch.symbolOf tok.address).isOk = true ∧
        (ch.decimalsOf tok.address).isOk = true) →
      ∃ msg, td.fetch_token_data ch tok = (td, .error (.chainError msg), 1) ∧
        (td.fetch_token_data ch tok).1.fetch_token_data ch tok =
          (td, .error (.chainError msg), 1) := by
  intro ch td tok hl hbad
  cases hn : ch.nameOf tok.address with
  | error e' =>
    have hfetch : td.fetch_token_data ch tok =
        (td, .error (.chainError e'), 1) := by
      rw [TokenData.fetch_token_data, hl, hn]
    exact ⟨e', hfetch, by rw [hfetch]; exact hfetch⟩
  | ok nm =>
    cases hs : ch.symbolOf tok.address with
    | error e' =>
      have hfetch : td.fetch_token_data ch tok =
          (td, .error (.chainError e'), 1) := by
        rw [TokenData.fetch_token_data, hl, hn, hs]
      exact ⟨e', hfetch, by rw [hfetch]; exact hfetch⟩
    | ok sym =>
      cases hd : ch.decimalsOf tok.address with
      | error e' =>
        have hfetch : td.fetch_token_data ch tok =
            (td, .error (.chainError e'), 1) := by
          rw [TokenData.fetch_token_data, hl, hn, hs, hd]
        exact ⟨e', hfetch, by rw [hfetch]; exact hfetch⟩
      | ok dec =>
        exfalso
        exact hbad ⟨by rw [hn]; rfl, by rw [hs]; rfl, by rw [hd]; rfl⟩

/-- C6 witness: the theorem applied to an empty cache and a metadata source
whose `decimals()` read raises. -/
theorem fetch_token_data_error_not_cached_witness :
    ∃ msg, (TokenData.mk []).fetch_token_data chainBadDecimals (.addr ("0xA")) =
        (⟨[]⟩, .error (.chainError msg), 1) ∧
      ((TokenData.mk []).fetch_token_data chainBadDecimals
          (.addr ("0xA"))).1.fetch_token_data chainBadDecimals (.addr ("0xA")) =
        (⟨[]⟩, .error (.chainError msg), 1) := by
  exact fetch_token_data_error_not_cached chainBadDecimals ⟨[]⟩ (.addr ("0xA"))
    (by decide) (by decide)

theorem diffInner_ok :
    ∀ (after : Balances) (t : Token) (inner : List (Account × Int)),
      (∀ av ∈ inner, (after.getItem t av.1).isOk = true) →
      diffInner after t inner =
        .ok (inner.map (fun av =>
          ⟨t.symbol, av.1, ⟨val (exGet after t av.1 - av.2) t.decimals⟩⟩)) := by
  intro after t inner
  induction inner with
  | nil => intro h; rfl
  | cons av rest ih =>
    intro h
    obtain ⟨a, v⟩ := av
    obtain ⟨w, hw⟩ := isOk_exists _ (h (a, v) (List.mem_cons_self _ _))
    have hrest := ih (fun av' hav' => h av' (List.mem_cons_of_mem _ hav'))
    have hx : exGet after t a = w := by rw [exGet, hw]
    simp only [diffInner, hw, hrest, pyTupIntEq, List.map_cons]
    simp [hx]

theorem diffRows_ok :
    ∀ (after : Balances) (bl : List (Token × List (Account × Int))),
      (∀ x ∈ entriesOf bl, (after.getItem x.1 x.2.1).isOk = true) →
      diffRows after bl =
        .ok ((entriesOf bl).map (fun x =>
          ⟨x.1.symbol, x.2.1,
            ⟨val (exGet after x.1 x.2.1 - x.2.2) x.1.decimals⟩⟩)) := by
  intro after bl
  induction bl with
  | nil => intro h; rfl
  | cons kv rest ih =>
    intro h
    obtain ⟨t, inner⟩ := kv
    have hin : ∀ av ∈ inner, (after.getItem t av.1).isOk = true := by
      intro av hav
      exact h (t, av.1, av.2)
        (List.mem_append_left _ (List.mem_map.mpr ⟨av, hav, rfl⟩))
    have hrest : ∀ x ∈ entriesOf rest, (after.getItem x.1 x.2.1).isOk = true := by
      intro x hx
      exact h x (List.mem_append_right _ hx)
    rw [diffRows, diffInner_ok after t inner hin, ih hrest]
    simp [entriesOf, List.map_map]

/-- C3: with at least two snapshots in history, `diff_last_two` compares the
two most recent snapshots by sequence position — `self.snaps[-2]` as before
and `self.snaps[-1]` as after, whatever their names — and produces, for
every (token, account) pair present in the before snapshot, exactly one row
whose amount is `val` of the signed raw difference
`after[token][account] - before-value` at the token's decimals. -/
theorem diff_last_two_signed_raw_diff :
    ∀ (e : BalanceSnapshotter) (init : List Snap) (nb na : String)
      (before after : Balances),
      e.snaps = init ++ [⟨nb, before⟩, ⟨na, after⟩] →
      (∀ x ∈ before.entryList, (after.getItem x.1 x.2.1).isOk = true) →
      e.diff_last_two = .ok (before.entryList.map (fun x =>
        ⟨x.1.symbol, x.2.1,
          ⟨val (exGet after x.1 x.2.1 - x.2.2) x.1.decimals⟩⟩)) := by
  intro e init nb na before after hsnaps hcov
  have hlen : ¬ e.snaps.length < 2 := by
    rw [hsnaps]
    simp
  have hrev : e.snaps.reverse = ⟨na, after⟩ :: ⟨nb, before⟩ :: init.reverse := by
    rw [hsnaps]
    simp
  rw [BalanceSnapshotter.diff_last_two, if_neg hlen, hrev]
  exact diffRows_ok after before.balances hcov

/-- C3 witness: the theorem applied to an engine whose history is two
concrete snapshots. -/
theorem diff_last_two_signed_raw_diff_witness :
    engineTwoSame.diff_last_two = .ok (storeFive.entryList.map (fun x =>
      ⟨x.1.symbol, x.2.1,
        ⟨val (exGet storeFive x.1 x.2.1 - x.2.2) x.1.decimals⟩⟩)) := by
  exact diff_last_two_signed_raw_diff engineTwoSame [] ("s0") ("s1") storeFive
    storeFive rfl (by decide)

theorem setInner_keys :
    ∀ (inner : List (Account × Int)) (a : Account) (v : Int),
      (setInner inner a v).map (fun av => av.1) =
        if a ∈ inner.map (fun av => av.1) then inner.map (fun av => av.1)
        else inner.map (fun av => av.1) ++ [a] := by
  intro inner a v
  induction inner with
  | nil => simp [setInner]
  | cons av rest ih =>
    obtain ⟨a0, v0⟩ := av
    by_cases ha : a0 = a
    · simp [setInner, ha]
    · have hne : ¬a = a0 := fun hc => ha hc.symm
      simp only [setInner, if_neg ha, List.map_cons, ih, List.mem_cons, hne,
        false_or]
      by_cases hmem : a ∈ rest.map (fun av => av.1)
      · simp [hmem]
      · simp [hmem]

theorem setInner_keysNodup :
    ∀ (inner : List (Account × Int)) (a : Account) (v : Int),
      (inner.map (fun av => av.1)).Nodup →
      ((setInner inner a v).map (fun av => av.1)).Nodup := by
  intro inner a v h
  rw [setInner_keys]
  by_cases hmem : a ∈ inner.map (fun av => av.1)
  · simpa [hmem] using h
  · simp only [if_neg hmem]
    simp [List.nodup_append, h, hmem]

theorem setInner_mem :
    ∀ (inner : List (Account × Int)) (a : Account) (v : Int),
      (inner.map (fun av => av.1)).Nodup →
      ∀ (a' : Account) (v' : Int),
        ((a', v') ∈ setInner inner a v ↔
          (((a', v') ∈ inner ∧ a' ≠ a) ∨ (a' = a ∧ v' = v))) := by
  intro inner a v hnd a' v'
  induction inner with
  | nil => simp [setInner]
  | cons av rest ih =>
    obtain ⟨a0, v0⟩ := av
    rw [List.map_cons] at hnd
    obtain ⟨hnd0, hndr⟩ := List.nodup_cons.mp hnd
    by_cases ha : a0 = a
    · subst ha
      rw [show setInner ((a0, v0) :: rest) a0 v = (a0, v) :: rest by
        simp [setInner]]
      simp only [List.mem_cons]
      constructor
      · intro h
        rcases h with h | h
        · right
          rw [Prod.mk.injEq] at h
          exact ⟨h.1, h.2⟩
        · have hfst : a' ∈ rest.map (fun av => av.1) :=
            List.mem_map.mpr ⟨(a', v'), h, rfl⟩
          have : a' ≠ a0 := fun hc => hnd0 (hc ▸ hfst)
          exact Or.inl ⟨Or.inr h, this⟩
      · intro h
        rcases h with ⟨h1 | h1, h2⟩ | ⟨h1, h2⟩
        · rw [Prod.mk.injEq] at h1
          exact absurd h1.1 h2
        · exact Or.inr h1
        · left
          rw [Prod.mk.injEq]
          exact ⟨h1, h2⟩
    · have ih' := ih hndr
      simp only [setInner, if_neg ha, List.mem_cons]
      constructor
      · intro h
        rcases h with h | h
        · rw [Prod.mk.injEq] at h
          have : a' ≠ a := fun hc => ha (h.1 ▸ hc)
          exact Or.inl ⟨Or.inl (by rw [Prod.mk.injEq]; exact h), this⟩
        · rcases ih'.mp h with ⟨h1, h2⟩ | h1
          · exact Or.inl ⟨Or.inr h1, h2⟩
          · exact Or.inr h1
      · intro h
        rcases h with ⟨h1 | h1, h2⟩ | ⟨h1, h2⟩
        · exact Or.inl h1
        · exact Or.inr (ih'.mpr (Or.inl ⟨h1, h2⟩))
        · exact Or.inr (ih'.mpr (Or.inr ⟨h1, h2⟩))

theorem entriesOf_fst_mem :
    ∀ (bl : List (Token × List (Account × Int))) (t' : Token) (a' : Account)
      (v' : Int),
      (t', a', v') ∈ entriesOf bl → t' ∈ bl.map (fun kv => kv.1) := by
  intro bl t' a' v'
  induction bl with
  | nil => simp [entriesOf]
  | cons kv rest ih =>
    intro h
    rw [entriesOf, List.mem_append] at h
    rcases h with h | h
    · obtain ⟨av, _, hav⟩ := List.mem_map.mp h
      rw [Prod.mk.injEq] at hav
      simp [hav.1.symm]
    · simp [ih h]

theorem mem_map_entry :
    ∀ (k : Token) (l : List (Account × Int)) (t' : Token) (a' : Account)
      (v' : Int),
      ((t', a', v') ∈ l.map (fun av => (k, av.1, av.2)) ↔
        (t' = k ∧ (a', v') ∈ l)) := by
  intro k l t' a' v'
  rw [List.mem_map]
  constructor
  · rintro ⟨av, hav, heq⟩
    rw [Prod.mk.injEq, Prod.mk.injEq] at heq
    refine ⟨heq.1.symm, ?_⟩
    have : av = (a', v') := by
      rw [Prod.ext_iff]
      exact ⟨heq.2.1, heq.2.2⟩
    exact this ▸ hav
  · rintro ⟨ht, hmem⟩
    exact ⟨(a', v'), hmem, by rw [ht]⟩

theorem setTok_ok :
    ∀ (bl : List (Token × List (Account × Int))) (t : Token) (a : Account)
      (v : Int),
      (∀ k ∈ bl.map (fun kv => kv.1),
        (k.address = t.address ∨ k.oid = t.oid) → k = t) →
      WFb bl →
      ∃ bl', setTok bl t a v = .ok bl' ∧ WFb bl' ∧
        (∀ k ∈ bl'.map (fun kv => kv.1),
          k ∈ bl.map (fun kv => kv.1) ∨ k = t) ∧
        (∀ t' a' v', (t', a', v') ∈ entriesOf bl' ↔
          (((t', a', v') ∈ entriesOf bl ∧ ¬(t' = t ∧ a' = a)) ∨
            (t' = t ∧ a' = a ∧ v' = v))) := by
  intro bl t a v
  induction bl with
  | nil =>
    intro hsafe hwf
    refine ⟨[(t, [(a, v)])], rfl, ?_, ?_, ?_⟩
    · constructor
      · simp
      · intro kv hkv
        rw [List.mem_singleton] at hkv
        rw [hkv]
        simp
    · intro k hk
      simp at hk
      exact Or.inr hk
    · intro t' a' v'
      simp [entriesOf, Prod.mk.injEq]
  | cons kv rest ih =>
    intro hsafe hwf
    obtain ⟨k, inner⟩ := kv
    obtain ⟨hnd, hinners⟩ := hwf
    rw [List.map_cons] at hnd
    obtain ⟨hk0, hndr⟩ := List.nodup_cons.mp hnd
    have hinNodup : (inner.map (fun av => av.1)).Nodup :=
      hinners (k, inner) (List.mem_cons_self _ _)
    by_cases h1 : k.oid = t.oid
    · have hkt : k = t := hsafe k (by simp) (Or.inr h1)
      refine ⟨(k, setInner inner a v) :: rest, ?_, ?_, ?_, ?_⟩
      · simp [setTok, h1]
      · constructor
        · simp only [List.map_cons]
          exact List.nodup_cons.mpr ⟨hk0, hndr⟩
        · intro kv' hkv'
          rcases List.mem_cons.mp hkv' with h | h
          · rw [h]
            exact setInner_keysNodup inner a v hinNodup
          · exact hinners kv' (List.mem_cons_of_mem _ h)
      · intro k' hk'
        simp only [List.map_cons] at hk' ⊢
        exact Or.inl hk'
      · intro t' a' v'
        have hsm := setInner_mem inner a v hinNodup a' v'
        have hRne : (t', a', v') ∈ entriesOf rest → t' ≠ t := by
          intro hr hc
          apply hk0
          rw [hkt, ← hc]
          exact entriesOf_fst_mem rest t' a' v' hr
        rw [entriesOf, entriesOf, List.mem_append, List.mem_append,
          mem_map_entry, mem_map_entry, hsm, hkt]
        constructor
        · intro h
          rcases h with ⟨ht', hin | hset⟩ | hr
          · exact Or.inl ⟨Or.inl ⟨ht', hin.1⟩, fun hc => hin.2 hc.2⟩
          · exact Or.inr ⟨ht', hset.1, hset.2⟩
          · exact Or.inl ⟨Or.inr hr, fun hc => hRne hr hc.1⟩
        · intro h
          rcases h with ⟨⟨ht', hin⟩ | hr, hne⟩ | ⟨ht', ha', hv'⟩
          · refine Or.inl ⟨ht', Or.inl ⟨hin, ?_⟩⟩
            intro hc
            exact hne ⟨ht', hc⟩
          · exact Or.inr hr
          · exact Or.inl ⟨ht', Or.inr ⟨ha', hv'⟩⟩
    · by_cases h2 : k.address = t.address
      · exact absurd (by rw [hsafe k (by simp) (Or.inl h2)]) h1
      · have hsafe' : ∀ k' ∈ rest.map (fun kv => kv.1),
            (k'.address = t.address ∨ k'.oid = t.oid) → k' = t := by
          intro k' hk'
          refine hsafe k' ?_
          simp only [List.map_cons, List.mem_cons]
          exact Or.inr hk'
        obtain ⟨rest', hr, hwfr, hkeysr, hentr⟩ := ih hsafe'
          ⟨hndr, fun kv hkv => hinners kv (List.mem_cons_of_mem _ hkv)⟩
        have hknet : k ≠ t := fun hc => h2 (by rw [hc])
        refine ⟨(k, inner) :: rest', ?_, ?_, ?_, ?_⟩
        · simp [setTok, h1, h2, hr]
        · constructor
          · simp only [List.map_cons]
            refine List.nodup_cons.mpr ⟨?_, hwfr.1⟩
            intro hc
            rcases hkeysr k hc with h | h
            · exact hk0 h
            · exact hknet h
          · intro kv' hkv'
            rcases List.mem_cons.mp hkv' with h | h
            · rw [h]
              exact hinNodup
            · exact hwfr.2 kv' h
        · intro k' hk'
          simp only [List.map_cons, List.mem_cons] at hk' ⊢
          rcases hk' with h | h
          · exact Or.inl (Or.inl h)
          · rcases hkeysr k' h with h' | h'
            · exact Or.inl (Or.inr h')
            · exact Or.inr h'
        · intro t' a' v'
          simp only [entriesOf, List.mem_append, mem_map_entry,
            hentr t' a' v']
          constructor
          · intro h
            rcases h with ⟨ht', hin⟩ | ⟨hrm, hne⟩ | ⟨ht', ha', hv'⟩
            · refine Or.inl ⟨Or.inl ⟨ht', hin⟩, ?_⟩
              intro hc
              exact absurd hc.1 (fun hx => hknet ((ht' ▸ hx : k = t)))
            · exact Or.inl ⟨Or.inr hrm, hne⟩
            · exact Or.inr ⟨ht', ha', hv'⟩
          · intro h
            rcases h with ⟨⟨ht', hin⟩ | hrm, hne⟩ | ⟨ht', ha', hv'⟩
            · exact Or.inl ⟨ht', hin⟩
            · exact Or.inr (Or.inl ⟨hrm, hne⟩)
            · exact Or.inr (Or.inr ⟨ht', ha', hv'⟩)

theorem runQueries_ok :
    ∀ (f : Token → Account → Int) (T : List Token),
      (∀ t1 ∈ T, ∀ t2 ∈ T,
        (t1.address = t2.address ∨ t1.oid = t2.oid) → t1 = t2) →
      ∀ (L : List (Token × Account)) (b : Balances),
        (∀ p ∈ L, p.1 ∈ T) →
        WFb b.balances →
        (∀ k ∈ b.balances.map (fun kv => kv.1), k ∈ T) →
        ∃ b' : Balances, runQueries (okReader f) L b = .ok b' ∧
          WFb b'.balances ∧
          (∀ k ∈ b'.balances.map (fun kv => kv.1), k ∈ T) ∧
          (∀ t' a' v', (t', a', v') ∈ entriesOf b'.balances ↔
            (((t', a', v') ∈ entriesOf b.balances ∧ (t', a') ∉ L) ∨
              ((t', a') ∈ L ∧ v' = f t' a'))) := by
  intro f T hT L
  induction L with
  | nil =>
    intro b hL hwf hkT
    refine ⟨b, rfl, hwf, hkT, ?_⟩
    intro t' a' v'
    simp
  | cons p rest ih =>
    intro b hL hwf hkT
    obtain ⟨t, a⟩ := p
    have htT : t ∈ T := hL (t, a) (List.mem_cons_self _ _)
    have hsafe : ∀ k ∈ b.balances.map (fun kv => kv.1),
        (k.address = t.address ∨ k.oid = t.oid) → k = t := by
      intro k hk hor
      exact hT k (hkT k hk) t htT hor
    obtain ⟨bl1, hset, hwf1, hkeys1, hent1⟩ :=
      setTok_ok b.balances t a (f t a) hsafe hwf
    have hkT1 : ∀ k ∈ bl1.map (fun kv => kv.1), k ∈ T := by
      intro k hk
      rcases hkeys1 k hk with h | h
      · exact hkT k h
      · exact h ▸ htT
    have hL1 : ∀ p ∈ rest, p.1 ∈ T := fun p hp =>
      hL p (List.mem_cons_of_mem _ hp)
    obtain ⟨b', hrun, hwf', hkT', hent'⟩ := ih ⟨bl1⟩ hL1 hwf1 hkT1
    refine ⟨b', ?_, hwf', hkT', ?_⟩
    · have hstep : runQueries (okReader f) ((t, a) :: rest) b =
          runQueries (okReader f) rest ⟨bl1⟩ := by
        simp [runQueries, okReader, Balances.set, hset]
      rw [hstep, hrun]
    · intro t' a' v'
      rw [hent' t' a' v']
      constructor
      · intro h
        rcases h with ⟨h1, h2⟩ | ⟨h1, h2⟩
        · rcases (hent1 t' a' v').mp h1 with ⟨hb, hne⟩ | ⟨ht', ha', hv'⟩
          · refine Or.inl ⟨hb, ?_⟩
            intro hc
            rcases List.mem_cons.mp hc with hc1 | hc1
            · rw [Prod.mk.injEq] at hc1
              exact hne ⟨hc1.1, hc1.2⟩
            · exact h2 hc1
          · refine Or.inr ⟨?_, ?_⟩
            · rw [ht', ha']
              exact List.mem_cons_self _ _
            · rw [ht', ha', hv']
        · exact Or.inr ⟨List.mem_cons_of_mem _ h1, h2⟩
      · intro h
        rcases h with ⟨h1, h2⟩ | ⟨h1, h2⟩
        · have hne : ¬(t' = t ∧ a' = a) := by
            intro hc
            apply h2
            rw [hc.1, hc.2]
            exact List.mem_cons_self _ _
          have h2' : (t', a') ∉ rest := fun hc =>
            h2 (List.mem_cons_of_mem _ hc)
          exact Or.inl ⟨(hent1 t' a' v').mpr (Or.inl ⟨h1, hne⟩), h2'⟩
        · rcases List.mem_cons.mp h1 with hc | hc
          · by_cases hrest : (t', a') ∈ rest
            · exact Or.inr ⟨hrest, h2⟩
            · rw [Prod.mk.injEq] at hc
              refine Or.inl ⟨(hent1 t' a' v').mpr
                (Or.inr ⟨hc.1, hc.2, ?_⟩), hrest⟩
              rw [h2, hc.1, hc.2]
          · exact Or.inr ⟨hc, h2⟩

theorem pairs_fst_mem :
    ∀ (bl : List (Token × List (Account × Int))) (x : Token × Account),
      x ∈ (entriesOf bl).map (fun y => (y.1, y.2.1)) →
      x.1 ∈ bl.map (fun kv => kv.1) := by
  intro bl x hx
  obtain ⟨y, hy, hxy⟩ := List.mem_map.mp hx
  have := entriesOf_fst_mem bl y.1 y.2.1 y.2.2 (by simpa using hy)
  rw [← hxy]
  exact this

theorem entriesOf_keys_nodup :
    ∀ bl, WFb bl → ((entriesOf bl).map (fun x => (x.1, x.2.1))).Nodup := by
  intro bl
  induction bl with
  | nil =>
    intro h
    simp [entriesOf]
  | cons kv rest ih =>
    intro hwf
    obtain ⟨k, inner⟩ := kv
    obtain ⟨hnd, hinners⟩ := hwf
    rw [List.map_cons] at hnd
    obtain ⟨hk0, hndr⟩ := List.nodup_cons.mp hnd
    have hih := ih ⟨hndr, fun kv hkv => hinners kv (List.mem_cons_of_mem _ hkv)⟩
    rw [entriesOf, List.map_append]
    refine List.Nodup.append ?_ hih ?_
    · rw [List.map_map]
      have hcomp : ((fun x : Token × Account × Int => (x.1, x.2.1)) ∘
          (fun av : Account × Int => (k, av.1, av.2))) =
          (fun av : Account × Int => (k, av.1)) := rfl
      rw [hcomp]
      have hsplit : (inner.map (fun av : Account × Int => (k, av.1))) =
          (inner.map (fun av => av.1)).map (fun a => (k, a)) := by
        rw [List.map_map]
        rfl
      rw [hsplit]
      refine List.Nodup.map ?_ (hinners (k, inner) (List.mem_cons_self _ _))
      intro x y hxy
      rw [Prod.mk.injEq] at hxy
      exact hxy.2
    · intro x hx1 hx2
      have h1 : x.1 = k := by
        obtain ⟨y, hy, hxy⟩ := List.mem_map.mp hx1
        obtain ⟨av, hav, hav2⟩ := List.mem_map.mp hy
        rw [← hxy, ← hav2]
      have h2 : x.1 ∈ rest.map (fun kv => kv.1) := pairs_fst_mem rest x hx2
      exact hk0 (h1 ▸ h2)

theorem mem_queryList :
    ∀ (e : BalanceSnapshotter) (t : Token) (a : Account),
      ((t, a) ∈ e.queryList ↔ (t ∈ e.tokens ∧ a ∈ e.accounts)) := by
  intro e t a
  rw [BalanceSnapshotter.queryList, List.mem_flatMap]
  constructor
  · rintro ⟨t0, ht0, hmem⟩
    obtain ⟨a0, ha0, heq⟩ := List.mem_map.mp hmem
    rw [Prod.mk.injEq] at heq
    exact ⟨heq.1 ▸ ht0, heq.2 ▸ ha0⟩
  · rintro ⟨ht, ha⟩
    exact ⟨t, ht, List.mem_map.mpr ⟨a, ha, rfl⟩⟩

/-- C1 (amended): provided no two distinct tracked `Token` wrapper objects
share an address, running `snap`/`_async_take_snapshot` on a chain-data
reader that answers every query — in any completion order of the gathered
queries — publishes a balance store with exactly one entry for every
(token, account) pair in tokens × accounts, each entry holding exactly the
reader's value for that pair; the characterisation is independent of the
completion order, the snapshot is appended to the history and the appended
snapshot is returned.  (Without that proviso the claim fails: see the
duplicate-address counterexample, where the store insertion crashes.) -/
theorem async_take_snapshot_complete :
    ∀ (e : BalanceSnapshotter) (nm : String) (f : Token → Account → Int)
      (order : List (Token × Account)),
      order.Perm e.queryList →
      (∀ t1 ∈ e.tokens, ∀ t2 ∈ e.tokens,
        (t1.address = t2.address ∨ t1.oid = t2.oid) → t1 = t2) →
      ∃ b : Balances,
        e.async_take_snapshot nm (okReader f) order =
          ({ e with snaps := e.snaps ++ [⟨nm, b⟩] }, .ok ⟨nm, b⟩) ∧
          (b.entryList.map (fun x => (x.1, x.2.1))).Nodup ∧
          (∀ t a v, (t, a, v) ∈ b.entryList ↔
            (t ∈ e.tokens ∧ a ∈ e.accounts ∧ v = f t a)) := by
  intro e nm f order hperm hinj
  have hL : ∀ p ∈ order, p.1 ∈ e.tokens := by
    intro p hp
    have hq : p ∈ e.queryList := hperm.mem_iff.mp hp
    obtain ⟨t, a⟩ := p
    exact ((mem_queryList e t a).mp hq).1
  have hwfnil : WFb ([] : List (Token × List (Account × Int))) :=
    ⟨by simp, by simp⟩
  obtain ⟨b, hrun, hwf, hkT, hent⟩ := runQueries_ok f e.tokens hinj order
    ⟨[]⟩ hL hwfnil (by simp)
  refine ⟨b, ?_, ?_, ?_⟩
  · rw [BalanceSnapshotter.async_take_snapshot, hrun]
  · exact entriesOf_keys_nodup b.balances hwf
  · intro t a v
    have h := hent t a v
    simp only [entriesOf, List.not_mem_nil, false_and, false_or] at h
    rw [show (t, a, v) ∈ b.entryList ↔
      (t, a, v) ∈ entriesOf b.balances from Iff.rfl, h, hperm.mem_iff,
      mem_queryList e t a, and_assoc]

/-- C1 witness: the theorem applied to a concrete two-token one-account
engine and a constant reader. -/
theorem async_take_snapshot_complete_witness :
    ∃ b : Balances,
      engineAB.async_take_snapshot ("w") (okReader (fun _ _ => 3))
          engineAB.queryList =
        ({ engineAB with snaps := engineAB.snaps ++ [⟨"w", b⟩] },
          .ok ⟨"w", b⟩) ∧
        (b.entryList.map (fun x => (x.1, x.2.1))).Nodup ∧
        (∀ t a v, (t, a, v) ∈ b.entryList ↔
          (t ∈ engineAB.tokens ∧ a ∈ engineAB.accounts ∧ v = 3)) := by
  exact async_take_snapshot_complete engineAB ("w") (fun _ _ => 3)
    engineAB.queryList (List.Perm.refl _) (by decide)

/-- C1 counterexample: with two distinct `Token` wrapper objects tracking
the same address (as produced by adding the same raw address twice), a
snapshot on a reader that answers every query publishes nothing at all:
inserting the second wrapper probes the balances dict, which holds a
distinct key of equal hash, `Token.__eq__` recurses without bound
(`RecursionError`), and the attempt fails with the history unchanged —
refuting the claim as stated for arbitrary tracked-token lists. -/
theorem async_take_snapshot_duplicate_address_crash :
    engineDup.async_take_snapshot ("s") (okReader (fun _ _ => 5))
      engineDup.queryList = (engineDup, .error .recursionError) := by decide

end BalSnap
